import Mathlib

/-!
Verification of the natural cubic spline regression engine of the
`datasense` repository, together with the example notebook driver
(`plot_scatter_line`, `main`) that calls it.

The engine itself (`choose_knots`, `fit`, `FittedModel.predict`) is not
present in the source tree — only its callers are — so the engine is
modelled from the specification over exact rationals `ℚ`: knot placement at
evenly spaced quantiles, the natural cubic spline basis (truncated-power
terms `d_j` normalized by the distance to the last knot, differenced
against the second-to-last one), and a least-squares solve realizing the
minimum-norm/pseudoinverse behavior by Greville's column-recursive
pseudoinverse, which is exact over `ℚ`.

The driver model (output path construction, the datetime cast of the
abscissa, parallel dispatch of independent tasks) is translated from the
notebook source.
-/

namespace Datasense

/-- Modelled from the spec: the error taxonomy of the engine; the only
fatal error class is `InvalidInput` (§7), raised at the API boundary. -/
inductive SplineError where
  | invalidInput
deriving DecidableEq, Repr

/-- Decidable equality for `Except`, so that concrete engine runs can be
checked by `decide`. -/
instance {ε α : Type} [DecidableEq ε] [DecidableEq α] :
    DecidableEq (Except ε α) := fun x y =>
  match x, y with
  | .ok a, .ok b =>
      if h : a = b then .isTrue (by rw [h])
      else .isFalse (by intro hh; cases hh; exact h rfl)
  | .error a, .error b =>
      if h : a = b then .isTrue (by rw [h])
      else .isFalse (by intro hh; cases hh; exact h rfl)
  | .ok _, .error _ => .isFalse (by intro hh; cases hh)
  | .error _, .ok _ => .isFalse (by intro hh; cases hh)

/-! ### Rational vectors as lists -/

/-- Dot product of two rational vectors (componentwise product, summed). -/
def dot (u v : List ℚ) : ℚ := (List.zipWith (· * ·) u v).sum

/-- Componentwise difference of two vectors. -/
def vsub (u v : List ℚ) : List ℚ := List.zipWith (· - ·) u v

/-- Componentwise sum of two vectors. -/
def vadd (u v : List ℚ) : List ℚ := List.zipWith (· + ·) u v

/-- Scalar multiple of a vector. -/
def smulV (c : ℚ) (v : List ℚ) : List ℚ := v.map (fun a => c * a)

/-- The zero vector of length `n`. -/
def zeroV (n : ℕ) : List ℚ := List.replicate n 0

/-- Linear combination `Σ cᵢ • vᵢ` of a list of vectors of length `n`. -/
def lincomb (n : ℕ) (cs : List ℚ) (vs : List (List ℚ)) : List ℚ :=
  (List.zipWith smulV cs vs).foldr vadd (zeroV n)

/-- Matrix (list of rows) times vector. -/
def matVec (rows : List (List ℚ)) (v : List ℚ) : List ℚ :=
  rows.map (fun r => dot r v)

/-! ### Natural cubic spline basis (modelled from the spec, §4.2) -/

/-- Positive part `max t 0`, the truncation of the truncated-power basis. -/
def pp (t : ℚ) : ℚ := max t 0

/-- Modelled from the spec: the helper cubic truncated-power term
`d_j(x) = ((x − k_j)₊³ − (x − k_m)₊³) / (k_m − k_j)`, normalized by the
distance to the boundary knot so that it extrapolates linearly outside the
knot range (§4.2). -/
def dTerm (knots : List ℚ) (j : ℕ) (t : ℚ) : ℚ :=
  ((pp (t - knots.getD j 0)) ^ 3 -
      (pp (t - knots.getD (knots.length - 1) 0)) ^ 3) /
    (knots.getD (knots.length - 1) 0 - knots.getD j 0)

/-- Modelled from the spec: the natural cubic spline basis functions for a
knot set of size `m`: the constant `1`, the identity, and for `m ≥ 2` the
`m − 2` curvature terms `d_j − d_{m−2}` (§4.2); for `m < 2` the basis
degenerates to `{1, x}`. -/
def basisFuns (knots : List ℚ) : List (ℚ → ℚ) :=
  if knots.length < 2 then [fun _ => 1, fun t => t]
  else [fun _ => 1, fun t => t] ++
    (List.range (knots.length - 2)).map
      (fun j => fun t => dTerm knots j t - dTerm knots (knots.length - 2) t)

/-- One row of the design matrix: the basis evaluated at a point. -/
def basisRow (knots : List ℚ) (t : ℚ) : List ℚ :=
  (basisFuns knots).map (fun f => f t)

/-- The dimension of the basis: `m` knots for `m ≥ 2`, else `2` (§4.2). -/
def basisDim (knots : List ℚ) : ℕ :=
  if knots.length < 2 then 2 else knots.length

/-- The design matrix as a list of columns (one per basis function). -/
def designColumns (knots : List ℚ) (x : List ℚ) : List (List ℚ) :=
  (basisFuns knots).map (fun f => x.map f)

/-- The design matrix as a list of rows (one per observation). -/
def designMatrix (knots : List ℚ) (x : List ℚ) : List (List ℚ) :=
  x.map (fun t => basisRow knots t)

/-! ### Least-squares solve (modelled from the spec, §4.2 failure policy) -/

/-- The coefficient vector `d = A⁺ₖ a` of Greville's recursion. -/
def grevD (Ap : List (List ℚ)) (a : List ℚ) : List ℚ :=
  Ap.map (fun r => dot r a)

/-- The residual column `c = a − Aₖ d` of Greville's recursion. -/
def grevC (n : ℕ) (cols Ap : List (List ℚ)) (a : List ℚ) : List ℚ :=
  vsub a (lincomb n (grevD Ap a) cols)

/-- The new pseudoinverse row `b` of Greville's recursion: `cᵀ/(cᵀc)` when
the residual is nonzero, else `(1 + dᵀd)⁻¹ dᵀ A⁺ₖ`. -/
def grevB (n : ℕ) (cols Ap : List (List ℚ)) (a : List ℚ) : List ℚ :=
  if dot (grevC n cols Ap a) (grevC n cols Ap a) = 0 then
    smulV (1 / (1 + dot (grevD Ap a) (grevD Ap a)))
      (lincomb n (grevD Ap a) Ap)
  else smulV (1 / dot (grevC n cols Ap a) (grevC n cols Ap a))
    (grevC n cols Ap a)

/-- One step of Greville's column-recursive pseudoinverse: extend the
pseudoinverse `Ap` of the matrix with columns `cols` by one column `a`. -/
def grevStep (n : ℕ) (st : List (List ℚ) × List (List ℚ)) (a : List ℚ) :
    List (List ℚ) × List (List ℚ) :=
  (st.1 ++ [a],
    (List.zipWith (fun r di => vsub r (smulV di (grevB n st.1 st.2 a)))
      st.2 (grevD st.2 a)) ++ [grevB n st.1 st.2 a])

/-- Modelled from the spec: the minimum-norm least-squares solve
("standard SVD-based pseudoinverse behavior", §4.2/§7), realized exactly
over `ℚ` by Greville's column-by-column pseudoinverse of an `n`-row matrix
given by its columns; returns the pseudoinverse as a list of rows. -/
def greville (n : ℕ) (cols : List (List ℚ)) : List (List ℚ) :=
  (cols.foldl (grevStep n) ([], [])).2

/-! ### The engine API (modelled from the spec, §4 and §6) -/

/-- The fitted model: owns the knot set and the coefficient vector,
immutable after fitting (§3). -/
structure FittedModel where
  knots : List ℚ
  beta : List ℚ
deriving DecidableEq, Repr

/-- Prediction at a single point: the stored coefficients applied to the
basis row built from the stored knot set (§4.3). -/
def predictOne (m : FittedModel) (t : ℚ) : ℚ := dot (basisRow m.knots t) m.beta

/-- Modelled from the spec: `predict(x_new)`, same length as `x_new`,
rebuilding the basis from the stored knots and applying the stored
coefficient vector `ŷ = X_new · β` (§4.3). -/
def predict (m : FittedModel) (xnew : List ℚ) : List ℚ :=
  xnew.map (fun t => predictOne m t)

/-- Sort ascending (the order statistics of `x` used by the quantiles). -/
def sortAsc (x : List ℚ) : List ℚ := x.insertionSort (· ≤ ·)

/-- The fractional index `h = p·(n−1)` of the linear-interpolation
quantile at fraction `p` of a sample of size `n`. -/
def qIndex (n : ℕ) (p : ℚ) : ℚ := p * ((n : ℚ) - 1)

/-- The integer part `⌊h⌋` of the quantile index. -/
def qLo (n : ℕ) (p : ℚ) : ℕ := (Int.floor (qIndex n p)).toNat

/-- Linear-interpolation quantile of a sorted list `s` at fraction `p`:
with `h = p·(n−1)`, interpolate between the order statistics at `⌊h⌋`
and `⌊h⌋ + 1`. -/
def quantileSorted (s : List ℚ) (p : ℚ) : ℚ :=
  s.getD (qLo s.length p) 0 +
    (qIndex s.length p - ((qLo s.length p : ℕ) : ℚ)) *
      (s.getD (qLo s.length p + 1) (s.getD (qLo s.length p) 0) -
        s.getD (qLo s.length p) 0)

/-- Modelled from the spec: `choose_knots(x, k)` places `k` interior knots
at the evenly spaced quantile fractions `i/(k+1)`, `i = 1..k`, of `x`
(§4.1); fails with `InvalidInput` iff `k` is negative or `x` is empty. -/
def choose_knots (x : List ℚ) (k : ℤ) : Except SplineError (List ℚ) :=
  if k < 0 ∨ x = [] then .error .invalidInput
  else .ok ((List.range k.toNat).map
    (fun (i : ℕ) => quantileSorted (sortAsc x) (((i : ℚ) + 1) / ((k.toNat : ℚ) + 1))))

/-- Modelled from the spec: `fit(x, y, knots)` validates the input
(`InvalidInput` iff `len(x) ≠ len(y)` or `N ≤ m` with `m` the basis
dimension, §4.2), builds the design matrix and solves least squares by the
pseudoinverse, returning the immutable fitted model. -/
def fit (x y : List ℚ) (knots : List ℚ) : Except SplineError FittedModel :=
  if x.length ≠ y.length ∨ x.length ≤ basisDim knots then .error .invalidInput
  else .ok ⟨knots, (greville x.length (designColumns knots x)).map (fun r => dot r y)⟩

/-- Modelled from the spec: the composite entry point
`natural_cubic_spline(X, y, number_knots)` used by the drivers — choose
the knots from `X`, then fit. -/
def natural_cubic_spline (x y : List ℚ) (numberKnots : ℤ) :
    Except SplineError FittedModel := do
  let knots ← choose_knots x numberKnots
  fit x y knots

/-- Minimum of a list (0 for the empty list). -/
def minOf : List ℚ → ℚ
  | [] => 0
  | a :: t => t.foldl min a

/-- Maximum of a list (0 for the empty list). -/
def maxOf : List ℚ → ℚ
  | [] => 0
  | a :: t => t.foldl max a

/-! ### Ordinary least-squares linear regression (the spec's reference
model for the degenerate case `k = 0`, §8) -/

/-- Mean of a list of rationals. -/
def meanOf (x : List ℚ) : ℚ := x.sum / (x.length : ℚ)

/-- Centered sum of squares `Σ (xᵢ − x̄)²`. -/
def sXX (x : List ℚ) : ℚ := (x.map (fun a => (a - meanOf x) ^ 2)).sum

/-- Centered cross sum `Σ (xᵢ − x̄)(yᵢ − ȳ)`. -/
def sXY (x y : List ℚ) : ℚ :=
  (List.zipWith (fun a b => (a - meanOf x) * (b - meanOf y)) x y).sum

/-- Stated from the spec's words: the ordinary least-squares slope of the
linear regression of `y` on `{1, x}`. -/
def ols_slope (x y : List ℚ) : ℚ := sXY x y / sXX x

/-- Stated from the spec's words: the ordinary least-squares intercept of
the linear regression of `y` on `{1, x}`. -/
def ols_intercept (x y : List ℚ) : ℚ := meanOf y - ols_slope x y * meanOf x

/-! ### The notebook driver (translated from the source,
`plot_scatter_line` and `main` in the piecewise natural cubic spline
notebook) -/

/-- The character set of Python's `str.strip(".csv")` as used by the
driver on file names. -/
def stripChars : List Char := ['.', 'c', 's', 'v']

/-- Python's `s.strip(".csv")`: remove leading and trailing characters
drawn from `{'.', 'c', 's', 'v'}`. -/
def pystrip (s : List Char) : List Char :=
  ((s.dropWhile (fun ch => ch ∈ stripChars)).reverse.dropWhile
    (fun ch => ch ∈ stripChars)).reverse

/-- The decimal digit character for `d % 10`. -/
def digitChar (d : ℕ) : Char := Char.ofNat (48 + d % 10)

/-- Fuel-driven decimal rendering of a natural number. -/
def natCharsAux : ℕ → ℕ → List Char
  | 0, _ => []
  | fuel + 1, n =>
      if n < 10 then [digitChar n]
      else natCharsAux fuel (n / 10) ++ [digitChar (n % 10)]

/-- Decimal rendering of a natural number, as Python's `f'{n}'`. -/
def natChars (n : ℕ) : List Char := natCharsAux (n + 1) n

/-- Translated from the source: the SVG output path
`f'{graphics_directory}/spline_{file.strip(".csv")}_{target}_{feature}_{numknots}.svg'`
computed by `plot_scatter_line`. -/
def svgPath (gdir file target feature : List Char) (numknots : ℕ) :
    List Char :=
  gdir ++ "/spline_".toList ++ pystrip file ++ ('_' :: target) ++
    ('_' :: feature) ++ ('_' :: natChars numknots) ++ ".svg".toList

/-- The x-axis values handed to the plotting call: either the numeric
ordinate or its `datetime64[ns]` cast (same numbers, marked as dates). -/
inductive AxisValues where
  | numeric (v : List ℚ)
  | datetime (v : List ℚ)
deriving DecidableEq, Repr

/-- The observable outcome of one `plot_scatter_line` task: the plotted
x-axis, the scatter `y1`, the fitted curve `y2`, and the saved path. -/
structure PlotResult where
  xAxis : AxisValues
  y1 : List ℚ
  y2 : List ℚ
  savedPath : List Char
deriving DecidableEq, Repr

/-- Translated from the source: `plot_scatter_line` fits the model on the
numeric `X` and `y`, predicts on that same `X`, casts `X` to datetime only
for the plot's x-axis when `dates` is set, and saves to the SVG path. -/
def plot_scatter_line (gdir : List Char) (X y : List ℚ)
    (file target feature : List Char) (numknots : ℕ) (dates : Bool) :
    Except SplineError PlotResult := do
  let model ← natural_cubic_spline X y (numknots : ℤ)
  .ok { xAxis := if dates then .datetime X else .numeric X
        y1 := y
        y2 := predict model X
        savedPath := svgPath gdir file target feature numknots }

/-- One (file, target, feature, x, y, knot count) work item of the
driver's parallel pool. -/
structure SplineTask where
  file : List Char
  target : List Char
  feature : List Char
  x : List ℚ
  y : List ℚ
  numknots : ℕ
deriving DecidableEq, Repr

/-- Run one pool task (the worker body of `pool.imap_unordered`). -/
def runTask (gdir : List Char) (dates : Bool) (t : SplineTask) :
    Except SplineError PlotResult :=
  plot_scatter_line gdir t.x t.y t.file t.target t.feature t.numknots dates

/-- Sequential execution of a list of tasks, pairing each task with its
result. -/
def runSeq (gdir : List Char) (dates : Bool) (ts : List SplineTask) :
    List (SplineTask × Except SplineError PlotResult) :=
  ts.map (fun t => (t, runTask gdir dates t))

/-! ### Dimension bookkeeping -/

theorem basisFuns_length (knots : List ℚ) :
    (basisFuns knots).length = basisDim knots := by
  unfold basisFuns basisDim
  split
  · rfl
  · simp only [List.length_append, List.length_map, List.length_range,
      List.length_cons, List.length_nil]
    omega

theorem basisRow_length (knots : List ℚ) (t : ℚ) :
    (basisRow knots t).length = basisDim knots := by
  unfold basisRow
  rw [List.length_map, basisFuns_length]

theorem designColumns_length (knots : List ℚ) (x : List ℚ) :
    (designColumns knots x).length = basisDim knots := by
  unfold designColumns
  rw [List.length_map, basisFuns_length]

theorem grevStep_snd_length (n : ℕ) (st : List (List ℚ) × List (List ℚ))
    (a : List ℚ) : ((grevStep n st a).2).length = st.2.length + 1 := by
  unfold grevStep grevD
  simp [List.length_zipWith, List.length_map]

theorem greville_foldl_length (n : ℕ) (cols : List (List ℚ)) :
    ∀ st : List (List ℚ) × List (List ℚ),
      ((cols.foldl (grevStep n) st).2).length = st.2.length + cols.length := by
  induction cols with
  | nil => intro st; simp
  | cons a cols ih =>
      intro st
      simp only [List.foldl_cons, List.length_cons]
      rw [ih, grevStep_snd_length]
      omega

theorem greville_length (n : ℕ) (cols : List (List ℚ)) :
    (greville n cols).length = cols.length := by
  unfold greville
  rw [greville_foldl_length]
  simp

theorem fit_beta_length (x y knots : List ℚ) (m : FittedModel)
    (h : fit x y knots = .ok m) : m.beta.length = basisDim knots := by
  unfold fit at h
  split at h
  · cases h
  · cases h
    simp [List.length_map, greville_length, designColumns_length]

/-! ### Linear extrapolation outside the knot range -/

theorem dot_nil_right (u : List ℚ) : dot u [] = 0 := by
  cases u <;> simp [dot]

theorem dot_cons_cons (a b : ℚ) (u v : List ℚ) :
    dot (a :: u) (b :: v) = a * b + dot u v := by
  simp [dot]

theorem sorted_getD_le {knots : List ℚ} (hs : knots.Sorted (· ≤ ·))
    {i j : ℕ} (hij : i ≤ j) (hj : j < knots.length) :
    knots.getD i 0 ≤ knots.getD j 0 := by
  rcases Nat.lt_or_ge i j with hlt | hge
  · rw [List.getD_eq_getElem knots 0 (lt_trans hlt hj), List.getD_eq_getElem knots 0 hj]
    exact List.pairwise_iff_get.mp hs ⟨i, lt_trans hlt hj⟩ ⟨j, hj⟩ hlt
  · have : i = j := le_antisymm hij hge
    subst this
    exact le_refl _

theorem sorted_getD_lt {knots : List ℚ} (hs : knots.Sorted (· < ·))
    {i j : ℕ} (hij : i < j) (hj : j < knots.length) :
    knots.getD i 0 < knots.getD j 0 := by
  rw [List.getD_eq_getElem knots 0 (lt_trans hij hj), List.getD_eq_getElem knots 0 hj]
  exact List.pairwise_iff_get.mp hs ⟨i, lt_trans hij hj⟩ ⟨j, hj⟩ hij

theorem pp_of_nonpos {t : ℚ} (h : t ≤ 0) : pp t = 0 := max_eq_right h

theorem pp_of_nonneg {t : ℚ} (h : 0 ≤ t) : pp t = t := max_eq_left h

/-- Below the first knot every truncated-power helper term vanishes. -/
theorem dTerm_below {knots : List ℚ} (hs : knots.Sorted (· ≤ ·)) {j : ℕ}
    (hj : j < knots.length) {t : ℚ} (ht : t ≤ knots.getD 0 0) :
    dTerm knots j t = 0 := by
  unfold dTerm
  have hkj : t ≤ knots.getD j 0 :=
    le_trans ht (sorted_getD_le hs (Nat.zero_le j) hj)
  have hkM : t ≤ knots.getD (knots.length - 1) 0 :=
    le_trans ht (sorted_getD_le hs (Nat.zero_le _) (by omega))
  rw [pp_of_nonpos (by linarith), pp_of_nonpos (by linarith)]
  simp

/-- Above the last knot the helper term is the quadratic
`(t−k_j)² + (t−k_j)(t−k_M) + (t−k_M)²`. -/
theorem dTerm_above {knots : List ℚ} (hs : knots.Sorted (· < ·)) {j : ℕ}
    (hj : j < knots.length - 1) {t : ℚ}
    (ht : knots.getD (knots.length - 1) 0 ≤ t) :
    dTerm knots j t =
      (t - knots.getD j 0) ^ 2 +
        (t - knots.getD j 0) * (t - knots.getD (knots.length - 1) 0) +
        (t - knots.getD (knots.length - 1) 0) ^ 2 := by
  unfold dTerm
  have hjM : knots.getD j 0 < knots.getD (knots.length - 1) 0 :=
    sorted_getD_lt hs hj (by omega)
  have h1 : 0 ≤ t - knots.getD j 0 := by linarith
  have h2 : 0 ≤ t - knots.getD (knots.length - 1) 0 := by linarith
  rw [pp_of_nonneg h1, pp_of_nonneg h2, div_eq_iff (by linarith)]
  ring

/-- A dot product of affine-on-`S` basis functions against any coefficient
vector is affine on `S`. -/
theorem dot_map_affine (S : ℚ → Prop) (fs : List (ℚ → ℚ))
    (hfs : ∀ f ∈ fs, ∃ u v : ℚ, ∀ t, S t → f t = u + v * t) :
    ∀ β : List ℚ, ∃ u v : ℚ, ∀ t, S t →
      dot (fs.map (fun f => f t)) β = u + v * t := by
  induction fs with
  | nil => exact fun β => ⟨0, 0, fun t _ => by simp [dot]⟩
  | cons f fs ih =>
      intro β
      cases β with
      | nil =>
          exact ⟨0, 0, fun t _ => by rw [dot_nil_right]; ring⟩
      | cons b β' =>
          obtain ⟨u1, v1, h1⟩ := hfs f (List.mem_cons_self f fs)
          obtain ⟨u2, v2, h2⟩ :=
            ih (fun g hg => hfs g (List.mem_cons_of_mem f hg)) β'
          refine ⟨u1 * b + u2, v1 * b + v2, fun t ht => ?_⟩
          simp only [List.map_cons, dot_cons_cons]
          rw [h1 t ht, h2 t ht]
          ring

/-- The spline predictor is affine below the first knot. -/
theorem predictOne_affine_below (m : FittedModel)
    (hs : m.knots.Sorted (· ≤ ·)) :
    ∃ u v : ℚ, ∀ t, t ≤ m.knots.getD 0 0 → predictOne m t = u + v * t := by
  have := dot_map_affine (fun t => t ≤ m.knots.getD 0 0) (basisFuns m.knots)
    ?_ m.beta
  · exact this
  · intro f hf
    unfold basisFuns at hf
    split at hf
    · simp only [List.mem_cons, List.not_mem_nil, or_false] at hf
      rcases hf with rfl | rfl
      · exact ⟨1, 0, fun t _ => by ring⟩
      · exact ⟨0, 1, fun t _ => by ring⟩
    · rcases List.mem_append.mp hf with h | h
      · simp only [List.mem_cons, List.not_mem_nil, or_false] at h
        rcases h with rfl | rfl
        · exact ⟨1, 0, fun t _ => by ring⟩
        · exact ⟨0, 1, fun t _ => by ring⟩
      · rcases List.mem_map.mp h with ⟨j, hj, hfe⟩
        have hjr := List.mem_range.mp hj
        subst hfe
        refine ⟨0, 0, fun t ht => ?_⟩
        dsimp only
        rw [dTerm_below hs (by omega) ht, dTerm_below hs (by omega) ht]
        ring

/-- The spline predictor is affine above the last knot. -/
theorem predictOne_affine_above (m : FittedModel)
    (hs : m.knots.Sorted (· < ·)) :
    ∃ u v : ℚ, ∀ t, m.knots.getD (m.knots.length - 1) 0 ≤ t →
      predictOne m t = u + v * t := by
  have := dot_map_affine
    (fun t => m.knots.getD (m.knots.length - 1) 0 ≤ t) (basisFuns m.knots)
    ?_ m.beta
  · exact this
  · intro f hf
    unfold basisFuns at hf
    split at hf
    · simp only [List.mem_cons, List.not_mem_nil, or_false] at hf
      rcases hf with rfl | rfl
      · exact ⟨1, 0, fun t _ => by ring⟩
      · exact ⟨0, 1, fun t _ => by ring⟩
    · rcases List.mem_append.mp hf with h | h
      · simp only [List.mem_cons, List.not_mem_nil, or_false] at h
        rcases h with rfl | rfl
        · exact ⟨1, 0, fun t _ => by ring⟩
        · exact ⟨0, 1, fun t _ => by ring⟩
      · rcases List.mem_map.mp h with ⟨j, hj, hfe⟩
        have hjr := List.mem_range.mp hj
        subst hfe
        refine ⟨-((m.knots.getD (m.knots.length - 2) 0 - m.knots.getD j 0) *
            (m.knots.getD j 0 + m.knots.getD (m.knots.length - 2) 0 +
              m.knots.getD (m.knots.length - 1) 0)),
          3 * (m.knots.getD (m.knots.length - 2) 0 - m.knots.getD j 0),
          fun t ht => ?_⟩
        dsimp only
        rw [dTerm_above hs (by omega) ht, dTerm_above hs (by omega) ht]
        ring

/-- C1: for every fitted model with strictly increasing knots, the
predictor is affine outside the knot range: the second difference of
predictions at any three equally spaced points all below the first knot or
all above the last knot vanishes. -/
theorem C1_natural_extrapolation (m : FittedModel)
    (hs : m.knots.Sorted (· < ·)) (a h : ℚ) (hh : 0 ≤ h)
    (hside : a + 2 * h ≤ m.knots.getD 0 0 ∨
      m.knots.getD (m.knots.length - 1) 0 ≤ a) :
    predictOne m (a + 2 * h) - 2 * predictOne m (a + h) + predictOne m a = 0 := by
  rcases hside with hbelow | habove
  · obtain ⟨u, v, haff⟩ := predictOne_affine_below m
      (List.Pairwise.imp le_of_lt hs)
    rw [haff (a + 2 * h) (by linarith), haff (a + h) (by linarith),
      haff a (by linarith)]
    ring
  · obtain ⟨u, v, haff⟩ := predictOne_affine_above m hs
    rw [haff (a + 2 * h) (by linarith), haff (a + h) (by linarith),
      haff a (by linarith)]
    ring

/-- Witness for C1: a concrete three-knot model evaluated above the last
knot has vanishing second differences. -/
theorem C1_natural_extrapolation_witness :
    ([0, 1, 2] : List ℚ).Sorted (· < ·) ∧ (0 : ℚ) ≤ 1 ∧
      ((5 : ℚ) + 2 * 1 ≤ ([0, 1, 2] : List ℚ).getD 0 0 ∨
        ([0, 1, 2] : List ℚ).getD (([0, 1, 2] : List ℚ).length - 1) 0 ≤ 5) ∧
      predictOne ⟨[0, 1, 2], [1, 2, 3]⟩ (5 + 2 * 1) -
        2 * predictOne ⟨[0, 1, 2], [1, 2, 3]⟩ (5 + 1) +
        predictOne ⟨[0, 1, 2], [1, 2, 3]⟩ 5 = 0 := by
  have h1 : ([0, 1, 2] : List ℚ).Sorted (· < ·) := by
    with_unfolding_all decide
  have h2 : (0 : ℚ) ≤ 1 := by with_unfolding_all decide
  have h3 : ((5 : ℚ) + 2 * 1 ≤ ([0, 1, 2] : List ℚ).getD 0 0 ∨
      ([0, 1, 2] : List ℚ).getD (([0, 1, 2] : List ℚ).length - 1) 0 ≤ 5) := by
    right; with_unfolding_all decide
  exact ⟨h1, h2, h3, C1_natural_extrapolation ⟨[0, 1, 2], [1, 2, 3]⟩ h1 5 1 h2 h3⟩

/-! ### The degenerate case `k = 0` is ordinary linear regression -/

theorem vsub_zeroV (v : List ℚ) : vsub v (zeroV v.length) = v := by
  induction v with
  | nil => rfl
  | cons a t ih =>
      simp only [zeroV, List.length_cons, List.replicate_succ, vsub,
        List.zipWith_cons_cons, sub_zero]
      exact congrArg (a :: ·) ih

theorem vadd_zeroV (v : List ℚ) : vadd v (zeroV v.length) = v := by
  induction v with
  | nil => rfl
  | cons a t ih =>
      simp only [zeroV, List.length_cons, List.replicate_succ, vadd,
        List.zipWith_cons_cons, add_zero]
      exact congrArg (a :: ·) ih

theorem smulV_length (c : ℚ) (v : List ℚ) : (smulV c v).length = v.length := by
  simp [smulV]

theorem sum_map_one (x : List ℚ) :
    ((x.map fun _ => (1 : ℚ)).sum) = (x.length : ℚ) := by
  induction x with
  | nil => simp
  | cons a t ih => simp [ih]; ring

theorem dot_map_mul_map (g f : ℚ → ℚ) (x : List ℚ) :
    dot (x.map g) (x.map f) = (x.map (fun a => g a * f a)).sum := by
  induction x with
  | nil => rfl
  | cons a t ih => simp only [List.map_cons, dot_cons_cons, ih, List.sum_cons]

theorem dot_map_left (g : ℚ → ℚ) (x w : List ℚ) :
    dot (x.map g) w = (List.zipWith (fun a b => g a * b) x w).sum := by
  induction x generalizing w with
  | nil => rfl
  | cons a t ih =>
      cases w with
      | nil => rfl
      | cons b w' => simp only [List.map_cons, dot_cons_cons,
          List.zipWith_cons_cons, List.sum_cons, ih]

theorem dot_ones_left (x w : List ℚ) (hlen : x.length = w.length) :
    dot (x.map fun _ => (1 : ℚ)) w = w.sum := by
  induction x generalizing w with
  | nil =>
      cases w with
      | nil => rfl
      | cons b w' => simp at hlen
  | cons a t ih =>
      cases w with
      | nil => simp at hlen
      | cons b w' =>
          simp only [List.map_cons, dot_cons_cons, List.sum_cons, one_mul]
          rw [ih w' (by simpa using hlen)]

theorem dot_smulV_left (c : ℚ) (u w : List ℚ) :
    dot (smulV c u) w = c * dot u w := by
  induction u generalizing w with
  | nil => simp [smulV, dot]
  | cons a t ih =>
      cases w with
      | nil => rw [dot_nil_right, dot_nil_right]; ring
      | cons b w' =>
          simp only [smulV, List.map_cons, dot_cons_cons] at *
          rw [ih w']
          ring

theorem dot_vsub_left (u v w : List ℚ) (hlen : u.length = v.length) :
    dot (vsub u v) w = dot u w - dot v w := by
  induction u generalizing v w with
  | nil =>
      cases v with
      | nil => simp [vsub, dot]
      | cons b v' => simp at hlen
  | cons a u' ih =>
      cases v with
      | nil => simp at hlen
      | cons b v' =>
          cases w with
          | nil => rw [dot_nil_right, dot_nil_right, dot_nil_right]; ring
          | cons cc w' =>
              simp only [vsub, List.zipWith_cons_cons, dot_cons_cons]
              rw [show List.zipWith (· - ·) u' v' = vsub u' v' from rfl,
                ih v' w' (by simpa using hlen)]
              ring

theorem vsub_map_const (x : List ℚ) (c : ℚ) :
    vsub x (x.map fun _ => c) = x.map (fun a => a - c) := by
  induction x with
  | nil => rfl
  | cons a t ih =>
      simp only [vsub, List.map_cons, List.zipWith_cons_cons] at *
      exact congrArg ((a - c) :: ·) ih

theorem smulV_map_one (c : ℚ) (x : List ℚ) :
    smulV c (x.map fun _ => (1 : ℚ)) = x.map fun _ => c := by
  simp [smulV, List.map_map, mul_one]

theorem sum_map_sub_const (x : List ℚ) (c : ℚ) :
    (x.map (fun a => a - c)).sum = x.sum - (x.length : ℚ) * c := by
  induction x with
  | nil => simp
  | cons a t ih =>
      simp only [List.map_cons, List.sum_cons, ih, List.length_cons]
      push_cast
      ring

theorem sum_map_sub_mean (x : List ℚ) (hx : x ≠ []) :
    (x.map (fun a => a - meanOf x)).sum = 0 := by
  rw [sum_map_sub_const, meanOf]
  have hn : (x.length : ℚ) ≠ 0 := by
    have h0 : x.length ≠ 0 := Nat.pos_iff_ne_zero.mp (List.length_pos.mpr hx)
    exact_mod_cast h0
  field_simp

theorem sum_zipWith_mul_sub (g : ℚ → ℚ) (c : ℚ) (x y : List ℚ)
    (hlen : x.length = y.length) :
    (List.zipWith (fun a b => g a * (b - c)) x y).sum =
      (List.zipWith (fun a b => g a * b) x y).sum - c * (x.map g).sum := by
  induction x generalizing y with
  | nil =>
      cases y with
      | nil => simp
      | cons b y' => simp at hlen
  | cons a x' ih =>
      cases y with
      | nil => simp at hlen
      | cons b y' =>
          simp only [List.zipWith_cons_cons, List.sum_cons, List.map_cons]
          rw [ih y' (by simpa using hlen)]
          ring

/-- The first Greville step on the all-ones column. -/
theorem grev_step_ones (x : List ℚ) (hN : (x.length : ℚ) ≠ 0) :
    grevStep x.length ([], []) (x.map fun _ => (1 : ℚ)) =
      ([x.map fun _ => (1 : ℚ)],
        [smulV (1 / (x.length : ℚ)) (x.map fun _ => (1 : ℚ))]) := by
  have hones : (x.map fun _ => (1 : ℚ)).length = x.length := by simp
  have hc : grevC x.length [] [] (x.map fun _ => (1 : ℚ)) =
      (x.map fun _ => (1 : ℚ)) := by
    unfold grevC grevD lincomb
    simpa [zeroV] using
      (by rw [← hones]; exact vsub_zeroV (x.map fun _ => (1 : ℚ)) :
        vsub (x.map fun _ => (1 : ℚ)) (zeroV x.length) =
          (x.map fun _ => (1 : ℚ)))
  have hcc : dot (grevC x.length [] [] (x.map fun _ => (1 : ℚ)))
      (grevC x.length [] [] (x.map fun _ => (1 : ℚ))) = (x.length : ℚ) := by
    rw [hc, dot_map_mul_map]
    simpa using sum_map_one x
  have hb : grevB x.length [] [] (x.map fun _ => (1 : ℚ)) =
      smulV (1 / (x.length : ℚ)) (x.map fun _ => (1 : ℚ)) := by
    unfold grevB
    rw [if_neg (by rw [hcc]; exact hN)]
    rw [hcc, hc]
  unfold grevStep
  rw [hb]
  simp [grevD]

/-- The second Greville step on the raw `x` column. -/
theorem grev_step_x (x : List ℚ) (hN : (x.length : ℚ) ≠ 0)
    (hnd : sXX x ≠ 0) :
    grevStep x.length
      ([x.map fun _ => (1 : ℚ)],
        [smulV (1 / (x.length : ℚ)) (x.map fun _ => (1 : ℚ))]) x =
      ([x.map fun _ => (1 : ℚ), x],
        [vsub (smulV (1 / (x.length : ℚ)) (x.map fun _ => (1 : ℚ)))
            (smulV (meanOf x) (smulV (1 / sXX x) (x.map (fun a => a - meanOf x)))),
          smulV (1 / sXX x) (x.map (fun a => a - meanOf x))]) := by
  have hones : (x.map fun _ => (1 : ℚ)).length = x.length := by simp
  have hd : grevD [smulV (1 / (x.length : ℚ)) (x.map fun _ => (1 : ℚ))] x =
      [meanOf x] := by
    unfold grevD
    simp only [List.map_cons, List.map_nil]
    rw [dot_smulV_left, dot_ones_left x x rfl]
    rw [meanOf, one_div, inv_mul_eq_div]
  have hlin : lincomb x.length [meanOf x] [x.map fun _ => (1 : ℚ)] =
      x.map fun _ => meanOf x := by
    unfold lincomb
    simp only [List.zipWith_cons_cons, List.zipWith_nil_right,
      List.foldr_cons, List.foldr_nil]
    rw [smulV_map_one]
    have : ((x.map fun _ => meanOf x)).length = x.length := by simp
    rw [show vadd (x.map fun _ => meanOf x) (zeroV x.length) =
        vadd (x.map fun _ => meanOf x)
          (zeroV ((x.map fun _ => meanOf x)).length) by rw [this]]
    exact vadd_zeroV _
  have hc : grevC x.length [x.map fun _ => (1 : ℚ)]
      [smulV (1 / (x.length : ℚ)) (x.map fun _ => (1 : ℚ))] x =
      x.map (fun a => a - meanOf x) := by
    unfold grevC
    rw [hd, hlin, vsub_map_const]
  have hcc : dot (x.map (fun a => a - meanOf x)) (x.map (fun a => a - meanOf x)) =
      sXX x := by
    rw [dot_map_mul_map, sXX]
    simp only [pow_two]
  have hb : grevB x.length [x.map fun _ => (1 : ℚ)]
      [smulV (1 / (x.length : ℚ)) (x.map fun _ => (1 : ℚ))] x =
      smulV (1 / sXX x) (x.map (fun a => a - meanOf x)) := by
    unfold grevB
    rw [if_neg (by rw [hc, hcc]; exact hnd)]
    rw [hc, hcc]
  unfold grevStep
  rw [hb, hd]
  simp

/-- C2: for every non-degenerate input pair, fitting with `k = 0` knots is
ordinary least-squares linear regression of `y` on `{1, x}`: the knot set
is empty, the fitted coefficients are the OLS intercept and slope, and the
predictor is the OLS line. Non-degeneracy means: equal lengths, more than
two observations (so the `N ≤ m` check passes), and `Σ(xᵢ−x̄)² ≠ 0`. -/
theorem C2_k_zero_is_ols (x y : List ℚ)
    (hlen : x.length = y.length) (hN : 2 < x.length) (hnd : sXX x ≠ 0) :
    choose_knots x 0 = .ok [] ∧
    fit x y [] = .ok ⟨[], [ols_intercept x y, ols_slope x y]⟩ ∧
    (∀ t, predictOne ⟨[], [ols_intercept x y, ols_slope x y]⟩ t =
      ols_intercept x y + ols_slope x y * t) := by
  have hxne : x ≠ [] := by
    intro h
    subst h
    simp at hN
  have hn0 : (x.length : ℚ) ≠ 0 := by
    have h0 : x.length ≠ 0 := by omega
    exact_mod_cast h0
  refine ⟨?_, ?_, ?_⟩
  · unfold choose_knots
    rw [if_neg (by simp [hxne])]
    simp
  · unfold fit
    rw [if_neg (by
      push_neg
      refine ⟨hlen, ?_⟩
      show basisDim [] < x.length
      unfold basisDim
      simpa using hN)]
    have hcols : designColumns [] x = [x.map fun _ => (1 : ℚ), x] := by
      unfold designColumns basisFuns
      simp
    rw [hcols]
    have hfold : greville x.length [x.map fun _ => (1 : ℚ), x] =
        (grevStep x.length (grevStep x.length ([], [])
          (x.map fun _ => (1 : ℚ))) x).2 := by
      unfold greville
      simp [List.foldl_cons, List.foldl_nil]
    rw [hfold, grev_step_ones x hn0, grev_step_x x hn0 hnd]
    have hslope : dot (smulV (1 / sXX x) (x.map (fun a => a - meanOf x))) y =
        ols_slope x y := by
      rw [dot_smulV_left, dot_map_left]
      have h1 : sXY x y =
          (List.zipWith (fun a b => (a - meanOf x) * b) x y).sum -
            meanOf y * ((x.map (fun a => a - meanOf x)).sum) := by
        have h2 := sum_zipWith_mul_sub (fun a => a - meanOf x)
          (meanOf y) x y hlen
        simpa [sXY] using h2
      have h3 : (List.zipWith (fun a b => (a - meanOf x) * b) x y).sum =
          sXY x y := by
        rw [h1, sum_map_sub_mean x hxne]
        ring
      rw [h3, ols_slope]
      rw [one_div, inv_mul_eq_div]
    have hmean : dot (smulV (1 / (x.length : ℚ))
        (x.map fun _ => (1 : ℚ))) y = meanOf y := by
      rw [dot_smulV_left, dot_ones_left x y hlen, meanOf, hlen]
      rw [one_div, inv_mul_eq_div]
    have hint : dot (vsub (smulV (1 / (x.length : ℚ)) (x.map fun _ => (1 : ℚ)))
        (smulV (meanOf x) (smulV (1 / sXX x) (x.map (fun a => a - meanOf x))))) y =
        ols_intercept x y := by
      rw [dot_vsub_left _ _ _ (by simp [smulV])]
      rw [hmean, dot_smulV_left, hslope, ols_intercept]
      ring
    simp only [List.map_cons, List.map_nil]
    rw [hslope, hint]
  · intro t
    have hrow : basisRow ([] : List ℚ) t = [1, t] := by
      unfold basisRow basisFuns
      simp
    unfold predictOne
    rw [hrow]
    simp [dot]
    ring

/-- Witness for C2 at `x = [0,1,2]`, `y = [1,2,3]` (the line `y = x + 1`):
the hypotheses hold and the fit is the OLS line. -/
theorem C2_k_zero_is_ols_witness :
    (([0, 1, 2] : List ℚ).length = ([1, 2, 3] : List ℚ).length ∧
      2 < ([0, 1, 2] : List ℚ).length ∧ sXX [0, 1, 2] ≠ 0) ∧
    (choose_knots [0, 1, 2] 0 = .ok [] ∧
      fit [0, 1, 2] [1, 2, 3] [] =
        .ok ⟨[], [ols_intercept [0, 1, 2] [1, 2, 3],
          ols_slope [0, 1, 2] [1, 2, 3]]⟩ ∧
      (∀ t, predictOne ⟨[], [ols_intercept [0, 1, 2] [1, 2, 3],
          ols_slope [0, 1, 2] [1, 2, 3]]⟩ t =
        ols_intercept [0, 1, 2] [1, 2, 3] +
          ols_slope [0, 1, 2] [1, 2, 3] * t)) := by
  have h1 : ([0, 1, 2] : List ℚ).length = ([1, 2, 3] : List ℚ).length := rfl
  have h2 : 2 < ([0, 1, 2] : List ℚ).length := by decide
  have h3 : sXX [0, 1, 2] ≠ 0 := by with_unfolding_all decide
  exact ⟨⟨h1, h2, h3⟩, C2_k_zero_is_ols [0, 1, 2] [1, 2, 3] h1 h2 h3⟩

/-! ### Quantile knot placement -/

theorem qIndex_pos {n : ℕ} (hn : 2 ≤ n) {p : ℚ} (hp : 0 < p) :
    0 < qIndex n p := by
  unfold qIndex
  have h1 : (1 : ℚ) ≤ (n : ℚ) - 1 := by
    have : (2 : ℚ) ≤ (n : ℚ) := by exact_mod_cast hn
    linarith
  nlinarith

theorem qIndex_lt {n : ℕ} (hn : 2 ≤ n) {p : ℚ} (hp : p < 1) (hp0 : 0 ≤ p) :
    qIndex n p < (n : ℚ) - 1 := by
  unfold qIndex
  have h1 : (1 : ℚ) ≤ (n : ℚ) - 1 := by
    have : (2 : ℚ) ≤ (n : ℚ) := by exact_mod_cast hn
    linarith
  nlinarith

theorem qLo_cast {n : ℕ} {p : ℚ} (hp : 0 ≤ qIndex n p) :
    ((qLo n p : ℕ) : ℚ) = ((Int.floor (qIndex n p) : ℤ) : ℚ) := by
  unfold qLo
  exact_mod_cast congrArg (fun z : ℤ => (z : ℚ))
    (Int.toNat_of_nonneg (Int.floor_nonneg.mpr hp))

theorem qLo_le {n : ℕ} {p : ℚ} (hp : 0 ≤ qIndex n p) :
    ((qLo n p : ℕ) : ℚ) ≤ qIndex n p := by
  rw [qLo_cast hp]
  exact Int.floor_le _

theorem lt_qLo_add_one {n : ℕ} {p : ℚ} (hp : 0 ≤ qIndex n p) :
    qIndex n p < ((qLo n p : ℕ) : ℚ) + 1 := by
  rw [qLo_cast hp]
  exact Int.lt_floor_add_one _

theorem qLo_add_one_lt {n : ℕ} (hn : 2 ≤ n) {p : ℚ} (hp0 : 0 ≤ p)
    (hp1 : p < 1) : qLo n p + 1 < n := by
  have h0 : 0 ≤ qIndex n p := by
    unfold qIndex
    have : (2 : ℚ) ≤ (n : ℚ) := by exact_mod_cast hn
    nlinarith
  have h1 : ((qLo n p : ℕ) : ℚ) ≤ qIndex n p := qLo_le h0
  have h2 : qIndex n p < (n : ℚ) - 1 := qIndex_lt hn hp1 hp0
  have h3 : ((qLo n p : ℕ) : ℚ) < (n : ℚ) - 1 := lt_of_le_of_lt h1 h2
  have h4 : ((qLo n p : ℕ) : ℚ) + 1 < (n : ℚ) := by linarith
  exact_mod_cast h4

/-- The interpolation quantile of a strictly sorted list at an interior
fraction lies strictly between the first and last order statistics. -/
theorem quantileSorted_between {s : List ℚ} (hs : s.Sorted (· < ·))
    (hn : 2 ≤ s.length) {p : ℚ} (hp0 : 0 < p) (hp1 : p < 1) :
    s.getD 0 0 < quantileSorted s p ∧
      quantileSorted s p < s.getD (s.length - 1) 0 := by
  have hsle : s.Sorted (· ≤ ·) := List.Pairwise.imp le_of_lt hs
  have hq0 : 0 < qIndex s.length p := qIndex_pos hn hp0
  have hj1n : qLo s.length p + 1 < s.length := qLo_add_one_lt hn hp0.le hp1
  have hjle : ((qLo s.length p : ℕ) : ℚ) ≤ qIndex s.length p := qLo_le hq0.le
  have hjlt : qIndex s.length p < ((qLo s.length p : ℕ) : ℚ) + 1 :=
    lt_qLo_add_one hq0.le
  have hstep : s.getD (qLo s.length p) 0 < s.getD (qLo s.length p + 1) 0 :=
    sorted_getD_lt hs (Nat.lt_succ_self _) hj1n
  have hgetDdef : s.getD (qLo s.length p + 1) (s.getD (qLo s.length p) 0) =
      s.getD (qLo s.length p + 1) 0 := by
    rw [List.getD_eq_getElem s _ hj1n, List.getD_eq_getElem s 0 hj1n]
  unfold quantileSorted
  rw [hgetDdef]
  set j := qLo s.length p with hj
  set g : ℚ := qIndex s.length p - ((j : ℕ) : ℚ) with hg
  have hg0 : 0 ≤ g := by rw [hg]; linarith
  have hg1 : g < 1 := by rw [hg]; linarith
  constructor
  · rcases Nat.eq_zero_or_pos j with hj0 | hjpos
    · have hgpos : 0 < g := by
        rw [hg, hj0]
        simpa using hq0
      rw [hj0] at hstep ⊢
      nlinarith [hstep, hgpos]
    · have h0j : s.getD 0 0 < s.getD j 0 := sorted_getD_lt hs hjpos (by omega)
      nlinarith [hg0, hstep]
  · have hlast : s.getD (j + 1) 0 ≤ s.getD (s.length - 1) 0 :=
      sorted_getD_le hsle (by omega) (by omega)
    nlinarith [hg1, hstep, hg0]

/-- The interpolation quantile of a strictly sorted list is strictly
monotone in the fraction on `[0, 1)`. -/
theorem quantileSorted_strictMono {s : List ℚ} (hs : s.Sorted (· < ·))
    (hn : 2 ≤ s.length) {p q : ℚ} (hp0 : 0 ≤ p) (hq1 : q < 1)
    (hpq : p < q) : quantileSorted s p < quantileSorted s q := by
  have hsle : s.Sorted (· ≤ ·) := List.Pairwise.imp le_of_lt hs
  have hq0 : 0 ≤ q := le_trans hp0 hpq.le
  have hp1 : p < 1 := lt_of_lt_of_le hpq hq1.le
  have hn1 : (0 : ℚ) < (s.length : ℚ) - 1 := by
    have : (2 : ℚ) ≤ (s.length : ℚ) := by exact_mod_cast hn
    linarith
  have hidx : qIndex s.length p < qIndex s.length q := by
    unfold qIndex
    exact mul_lt_mul_of_pos_right hpq hn1
  have hqp0 : 0 ≤ qIndex s.length p := by
    unfold qIndex
    nlinarith
  have hqq0 : 0 ≤ qIndex s.length q := le_trans hqp0 hidx.le
  have hjp1n : qLo s.length p + 1 < s.length := qLo_add_one_lt hn hp0 hp1
  have hjq1n : qLo s.length q + 1 < s.length := qLo_add_one_lt hn hq0 hq1
  have hjmono : qLo s.length p ≤ qLo s.length q := by
    unfold qLo
    exact Int.toNat_le_toNat (Int.floor_le_floor hidx.le)
  have hgetp : s.getD (qLo s.length p + 1) (s.getD (qLo s.length p) 0) =
      s.getD (qLo s.length p + 1) 0 := by
    rw [List.getD_eq_getElem s _ hjp1n, List.getD_eq_getElem s 0 hjp1n]
  have hgetq : s.getD (qLo s.length q + 1) (s.getD (qLo s.length q) 0) =
      s.getD (qLo s.length q + 1) 0 := by
    rw [List.getD_eq_getElem s _ hjq1n, List.getD_eq_getElem s 0 hjq1n]
  have hstepp : s.getD (qLo s.length p) 0 < s.getD (qLo s.length p + 1) 0 :=
    sorted_getD_lt hs (Nat.lt_succ_self _) hjp1n
  have hstepq : s.getD (qLo s.length q) 0 < s.getD (qLo s.length q + 1) 0 :=
    sorted_getD_lt hs (Nat.lt_succ_self _) hjq1n
  have hjplq : ((qLo s.length p : ℕ) : ℚ) ≤ qIndex s.length p := qLo_le hqp0
  have hjpgt : qIndex s.length p < ((qLo s.length p : ℕ) : ℚ) + 1 :=
    lt_qLo_add_one hqp0
  have hjqlq : ((qLo s.length q : ℕ) : ℚ) ≤ qIndex s.length q := qLo_le hqq0
  have hjqgt : qIndex s.length q < ((qLo s.length q : ℕ) : ℚ) + 1 :=
    lt_qLo_add_one hqq0
  unfold quantileSorted
  rw [hgetp, hgetq]
  rcases Nat.lt_or_ge (qLo s.length p) (qLo s.length q) with hlt | hge
  · -- the two fractions straddle different cells
    have hup : s.getD (qLo s.length p) 0 +
        (qIndex s.length p - ((qLo s.length p : ℕ) : ℚ)) *
          (s.getD (qLo s.length p + 1) 0 - s.getD (qLo s.length p) 0) <
        s.getD (qLo s.length p + 1) 0 := by
      nlinarith [hstepp, hjpgt, hjplq]
    have hmid : s.getD (qLo s.length p + 1) 0 ≤ s.getD (qLo s.length q) 0 :=
      sorted_getD_le hsle (by omega) (by omega)
    have hdown : s.getD (qLo s.length q) 0 ≤ s.getD (qLo s.length q) 0 +
        (qIndex s.length q - ((qLo s.length q : ℕ) : ℚ)) *
          (s.getD (qLo s.length q + 1) 0 - s.getD (qLo s.length q) 0) := by
      nlinarith [hstepq, hjqlq]
    linarith
  · have hjeq : qLo s.length p = qLo s.length q := le_antisymm hjmono hge
    rw [← hjeq]
    have hgg : qIndex s.length p - ((qLo s.length p : ℕ) : ℚ) <
        qIndex s.length q - ((qLo s.length p : ℕ) : ℚ) := by linarith
    nlinarith [hstepp, hgg]

theorem foldl_min_le (t : List ℚ) (a : ℚ) : t.foldl min a ≤ a := by
  induction t generalizing a with
  | nil => exact le_refl a
  | cons b t ih => exact le_trans (ih (min a b)) (min_le_left a b)

theorem foldl_min_le_mem (t : List ℚ) (a : ℚ) :
    ∀ b ∈ t, t.foldl min a ≤ b := by
  induction t generalizing a with
  | nil => intro b hb; cases hb
  | cons c t ih =>
      intro b hb
      rcases List.mem_cons.mp hb with rfl | hb
      · exact le_trans (foldl_min_le t (min a b)) (min_le_right a b)
      · exact ih (min a c) b hb

theorem foldl_min_mem (t : List ℚ) (a : ℚ) : t.foldl min a ∈ a :: t := by
  induction t generalizing a with
  | nil => exact List.mem_singleton.mpr rfl
  | cons b t ih =>
      have h := ih (min a b)
      rcases List.mem_cons.mp h with heq | hmem
      · rcases min_choice a b with hab | hab
        · rw [List.foldl_cons, heq, hab]
          exact List.mem_cons_self _ _
        · rw [List.foldl_cons, heq, hab]
          exact List.mem_cons_of_mem _ (List.mem_cons_self _ _)
      · exact List.mem_cons_of_mem _ (List.mem_cons_of_mem _ hmem)

theorem foldl_le_max (t : List ℚ) (a : ℚ) : a ≤ t.foldl max a := by
  induction t generalizing a with
  | nil => exact le_refl a
  | cons b t ih => exact le_trans (le_max_left a b) (ih (max a b))

theorem foldl_mem_le_max (t : List ℚ) (a : ℚ) :
    ∀ b ∈ t, b ≤ t.foldl max a := by
  induction t generalizing a with
  | nil => intro b hb; cases hb
  | cons c t ih =>
      intro b hb
      rcases List.mem_cons.mp hb with rfl | hb
      · exact le_trans (le_max_right a b) (foldl_le_max t (max a b))
      · exact ih (max a c) b hb

theorem foldl_max_mem (t : List ℚ) (a : ℚ) : t.foldl max a ∈ a :: t := by
  induction t generalizing a with
  | nil => exact List.mem_singleton.mpr rfl
  | cons b t ih =>
      have h := ih (max a b)
      rcases List.mem_cons.mp h with heq | hmem
      · rcases max_choice a b with hab | hab
        · rw [List.foldl_cons, heq, hab]
          exact List.mem_cons_self _ _
        · rw [List.foldl_cons, heq, hab]
          exact List.mem_cons_of_mem _ (List.mem_cons_self _ _)
      · exact List.mem_cons_of_mem _ (List.mem_cons_of_mem _ hmem)

theorem minOf_le {x : List ℚ} {a : ℚ} (ha : a ∈ x) : minOf x ≤ a := by
  cases x with
  | nil => cases ha
  | cons b t =>
      rcases List.mem_cons.mp ha with rfl | ha
      · exact foldl_min_le t a
      · exact foldl_min_le_mem t b a ha

theorem minOf_mem {x : List ℚ} (hx : x ≠ []) : minOf x ∈ x := by
  cases x with
  | nil => exact absurd rfl hx
  | cons b t => exact foldl_min_mem t b

theorem le_maxOf {x : List ℚ} {a : ℚ} (ha : a ∈ x) : a ≤ maxOf x := by
  cases x with
  | nil => cases ha
  | cons b t =>
      rcases List.mem_cons.mp ha with rfl | ha
      · exact foldl_le_max t a
      · exact foldl_mem_le_max t b a ha

theorem maxOf_mem {x : List ℚ} (hx : x ≠ []) : maxOf x ∈ x := by
  cases x with
  | nil => exact absurd rfl hx
  | cons b t => exact foldl_max_mem t b

theorem sortAsc_sorted (x : List ℚ) : (sortAsc x).Sorted (· ≤ ·) :=
  List.sorted_insertionSort _ x

theorem sortAsc_perm (x : List ℚ) : (sortAsc x).Perm x :=
  List.perm_insertionSort _ x

theorem sortAsc_length (x : List ℚ) : (sortAsc x).length = x.length :=
  (sortAsc_perm x).length_eq

theorem sorted_head_le {s : List ℚ} (hs : s.Sorted (· ≤ ·)) {a : ℚ}
    (ha : a ∈ s) : s.getD 0 0 ≤ a := by
  cases s with
  | nil => cases ha
  | cons b t =>
      rcases List.mem_cons.mp ha with rfl | ha
      · exact le_refl a
      · exact List.rel_of_sorted_cons hs a ha

theorem sorted_le_last {s : List ℚ} (hs : s.Sorted (· ≤ ·)) {a : ℚ}
    (ha : a ∈ s) : a ≤ s.getD (s.length - 1) 0 := by
  rcases List.mem_iff_get.mp ha with ⟨i, rfl⟩
  have hi : (i : ℕ) < s.length := i.isLt
  have := sorted_getD_le hs (Nat.le_sub_one_of_lt hi) (by omega)
  rw [List.getD_eq_getElem s 0 hi] at this
  simpa using this

theorem last_getD_mem {s : List ℚ} (hs : s ≠ []) :
    s.getD (s.length - 1) 0 ∈ s := by
  have hl : s.length - 1 < s.length := by
    have : 0 < s.length := List.length_pos.mpr hs
    omega
  rw [List.getD_eq_getElem s 0 hl]
  exact List.getElem_mem hl

theorem head_getD_mem {s : List ℚ} (hs : s ≠ []) : s.getD 0 0 ∈ s := by
  have hl : 0 < s.length := List.length_pos.mpr hs
  rw [List.getD_eq_getElem s 0 hl]
  exact List.getElem_mem hl

/-- The minimum of `x` is the first order statistic. -/
theorem minOf_eq_sorted (x : List ℚ) (hx : x ≠ []) :
    minOf x = (sortAsc x).getD 0 0 := by
  have hsne : sortAsc x ≠ [] := by
    intro h
    have := sortAsc_length x
    rw [h] at this
    exact hx (List.length_eq_zero.mp this.symm)
  have h1 : minOf x ≤ (sortAsc x).getD 0 0 :=
    minOf_le ((sortAsc_perm x).mem_iff.mp (head_getD_mem hsne))
  have h2 : (sortAsc x).getD 0 0 ≤ minOf x :=
    sorted_head_le (sortAsc_sorted x)
      ((sortAsc_perm x).mem_iff.mpr (minOf_mem hx))
  exact le_antisymm h1 h2

/-- The maximum of `x` is the last order statistic. -/
theorem maxOf_eq_sorted (x : List ℚ) (hx : x ≠ []) :
    maxOf x = (sortAsc x).getD ((sortAsc x).length - 1) 0 := by
  have hsne : sortAsc x ≠ [] := by
    intro h
    have := sortAsc_length x
    rw [h] at this
    exact hx (List.length_eq_zero.mp this.symm)
  have h1 : (sortAsc x).getD ((sortAsc x).length - 1) 0 ≤ maxOf x :=
    le_maxOf ((sortAsc_perm x).mem_iff.mp (last_getD_mem hsne))
  have h2 : maxOf x ≤ (sortAsc x).getD ((sortAsc x).length - 1) 0 :=
    sorted_le_last (sortAsc_sorted x)
      ((sortAsc_perm x).mem_iff.mpr (maxOf_mem hx))
  exact le_antisymm h2 h1

/-- C3 (amended): for every `x` with pairwise distinct values, `k ≥ 1` and
`len(x) ≥ k+2`, `choose_knots(x, k)` returns exactly the `k` quantiles of
`x` at the fractions `i/(k+1)`, strictly increasing and strictly inside
`(min x, max x)`. (The original claim, which asks this whenever `x` merely
has `≥ k+2` distinct values, fails when duplicates pull a quantile onto
the extreme — see the counterexample.) -/
theorem C3_quantile_knots (x : List ℚ) (k : ℕ) (hk : 1 ≤ k)
    (hnd : x.Nodup) (hlen : k + 2 ≤ x.length) :
    ∃ ks, choose_knots x (k : ℤ) = .ok ks ∧
      ks.length = k ∧
      ks = (List.range k).map
        (fun (i : ℕ) => quantileSorted (sortAsc x) (((i : ℚ) + 1) / ((k : ℚ) + 1))) ∧
      ks.Sorted (· < ·) ∧
      ∀ q ∈ ks, minOf x < q ∧ q < maxOf x := by
  have hxne : x ≠ [] := by
    intro h
    subst h
    simp at hlen
  have hkt : ((k : ℤ)).toNat = k := Int.toNat_natCast k
  have hok : choose_knots x (k : ℤ) = .ok ((List.range k).map
      (fun (i : ℕ) => quantileSorted (sortAsc x) (((i : ℚ) + 1) / ((k : ℚ) + 1)))) := by
    unfold choose_knots
    rw [if_neg (by push_neg; exact ⟨by omega, hxne⟩), hkt]
  have hsnd : (sortAsc x).Nodup := ((sortAsc_perm x).nodup_iff).mpr hnd
  have hslt : (sortAsc x).Sorted (· < ·) := by
    have hand := List.Pairwise.and (sortAsc_sorted x) hsnd
    exact hand.imp (fun hab => lt_of_le_of_ne hab.1 hab.2)
  have hn2 : 2 ≤ (sortAsc x).length := by
    rw [sortAsc_length]
    omega
  have hfrac0 : ∀ i : ℕ, (0 : ℚ) < ((i : ℚ) + 1) / ((k : ℚ) + 1) := by
    intro i
    apply div_pos
    · positivity
    · positivity
  have hfrac1 : ∀ i : ℕ, i < k → ((i : ℚ) + 1) / ((k : ℚ) + 1) < 1 := by
    intro i hi
    rw [div_lt_one (by positivity)]
    have : (i : ℚ) < (k : ℚ) := by exact_mod_cast hi
    linarith
  refine ⟨_, hok, by simp, rfl, ?_, ?_⟩
  · have hpair : (List.range k).Pairwise (fun (i j : ℕ) =>
        quantileSorted (sortAsc x) (((i : ℚ) + 1) / ((k : ℚ) + 1)) <
        quantileSorted (sortAsc x) (((j : ℚ) + 1) / ((k : ℚ) + 1))) := by
      apply List.Pairwise.imp_of_mem ?_ (List.pairwise_lt_range k)
      · intro i j hi hj hij
        have hjk := List.mem_range.mp hj
        have hplt : ((i : ℚ) + 1) / ((k : ℚ) + 1) <
            ((j : ℚ) + 1) / ((k : ℚ) + 1) := by
          rw [div_lt_div_iff_of_pos_right (by positivity : (0:ℚ) < (k : ℚ) + 1)]
          have : (i : ℚ) < (j : ℚ) := by exact_mod_cast hij
          linarith
        exact quantileSorted_strictMono hslt hn2 (hfrac0 i).le
          (hfrac1 j hjk) hplt
    exact List.Pairwise.map _ (fun a b h => h) hpair
  · intro q hq
    rcases List.mem_map.mp hq with ⟨i, hi, rfl⟩
    have hik := List.mem_range.mp hi
    have hb := quantileSorted_between hslt hn2 (hfrac0 i) (hfrac1 i hik)
    rw [minOf_eq_sorted x hxne, maxOf_eq_sorted x hxne]
    exact hb

/-- Counterexample to C3 as stated: `x = [0,0,0,1,2]` has `3 ≥ k+2`
distinct values for `k = 1`, yet the knot returned is `0 = min x`, not
strictly inside `(min x, max x)` — duplicates pull the median onto the
extreme. -/
theorem C3_quantile_knots_counterexample :
    1 ≤ (1 : ℕ) ∧
    ([0, 0, 0, 1, 2] : List ℚ).dedup.length = 3 ∧
    choose_knots [0, 0, 0, 1, 2] (1 : ℤ) = .ok [0] ∧
    ¬ (∀ q ∈ [(0 : ℚ)],
        minOf [0, 0, 0, 1, 2] < q ∧ q < maxOf [0, 0, 0, 1, 2]) := by
  refine ⟨le_refl 1, by with_unfolding_all decide,
    by with_unfolding_all decide, ?_⟩
  intro hforall
  have h := (hforall 0 (List.mem_singleton.mpr rfl)).1
  have hmin : minOf [0, 0, 0, 1, 2] = (0 : ℚ) := by
    with_unfolding_all decide
  rw [hmin] at h
  exact lt_irrefl 0 h

/-- Witness for C3 (amended) at `x = [0,1,2]`, `k = 1`. -/
theorem C3_quantile_knots_witness :
    (([0, 1, 2] : List ℚ).Nodup ∧ 1 + 2 ≤ ([0, 1, 2] : List ℚ).length) ∧
    ∃ ks, choose_knots [0, 1, 2] ((1 : ℕ) : ℤ) = .ok ks ∧ ks.length = 1 ∧
      ks.Sorted (· < ·) ∧
      ∀ q ∈ ks, minOf [0, 1, 2] < q ∧ q < maxOf [0, 1, 2] := by
  have h1 : ([0, 1, 2] : List ℚ).Nodup := by with_unfolding_all decide
  have h2 : 1 + 2 ≤ ([0, 1, 2] : List ℚ).length := by decide
  obtain ⟨ks, ha, hb, hc, hd, he⟩ :=
    C3_quantile_knots [0, 1, 2] 1 (le_refl 1) h1 h2
  exact ⟨⟨h1, h2⟩, ks, ha, hb, hd, he⟩

/-- C5: `fit` never raises once the `InvalidInput` checks pass, even on a
rank-deficient design (the pseudoinverse solve is total); in the
degenerate scenario of `x` with only two distinct values and `k = 5`
knots, `choose_knots` and `fit` both succeed and `predict` returns a
(finite, rational) output of the right length for every requested
`x_new`. -/
theorem C5_rank_deficiency_absorbed :
    (∀ x y knots : List ℚ, x.length = y.length →
      basisDim knots < x.length → ∃ fm, fit x y knots = .ok fm) ∧
    (∃ ks, choose_knots [0, 0, 0, 1, 1, 1] 5 = .ok ks ∧
      (([0, 0, 0, 1, 1, 1] : List ℚ).dedup.length = 2) ∧
      ∃ fm, fit [0, 0, 0, 1, 1, 1] [0, 1, 2, 3, 4, 5] ks = .ok fm ∧
        (∀ xnew : List ℚ, (predict fm xnew).length = xnew.length) ∧
        (designColumns ks [0, 0, 0, 1, 1, 1]).map
            (fun col => dot col (vsub [0, 1, 2, 3, 4, 5]
              (matVec (designMatrix ks [0, 0, 0, 1, 1, 1]) fm.beta))) =
          [0, 0, 0, 0, 0]) := by
  have hgen : ∀ x y knots : List ℚ, x.length = y.length →
      basisDim knots < x.length → ∃ fm, fit x y knots = .ok fm := by
    intro x y knots h1 h2
    unfold fit
    rw [if_neg (by push_neg; exact ⟨h1, h2⟩)]
    exact ⟨_, rfl⟩
  refine ⟨hgen, ⟨[0, 0, 1/2, 1, 1], ?_, ?_, ?_⟩⟩
  · with_unfolding_all decide
  · with_unfolding_all decide
  · refine ⟨⟨[0, 0, 1/2, 1, 1], [1, 48/49, 48/49, 48/49, 12/49]⟩, ?_,
      fun xnew => by simp [predict], ?_⟩
    · with_unfolding_all decide
    · with_unfolding_all decide

/-- Witness for C5: the universally quantified no-raise statement applied
to a concrete valid input. -/
theorem C5_rank_deficiency_absorbed_witness :
    (([0, 1, 2] : List ℚ).length = ([5, 5, 5] : List ℚ).length ∧
      basisDim [] < ([0, 1, 2] : List ℚ).length) ∧
    (∃ fm, fit [0, 1, 2] [5, 5, 5] [] = .ok fm) := by
  have h1 : ([0, 1, 2] : List ℚ).length = ([5, 5, 5] : List ℚ).length := rfl
  have h2 : basisDim [] < ([0, 1, 2] : List ℚ).length := by
    unfold basisDim
    simp
  exact ⟨⟨h1, h2⟩,
    C5_rank_deficiency_absorbed.1 [0, 1, 2] [5, 5, 5] [] h1 h2⟩

/-- C8: for every knot set of size `m ≥ 2` the design matrix has exactly
`m` columns — the constant `1`, the linear term, and `m − 2` curvature
terms formed from differences of the normalized truncated-power terms
`d_j` — for `m < 2` the columns are exactly `{1, x}`, and the fitted
coefficient vector has length equal to the basis dimension. -/
theorem C8_basis_dimension :
    ∀ (knots : List ℚ) (t : ℚ),
      (basisRow knots t).length = basisDim knots ∧
      (2 ≤ knots.length → basisDim knots = knots.length ∧
        basisRow knots t = 1 :: t ::
          (List.range (knots.length - 2)).map
            (fun j => dTerm knots j t - dTerm knots (knots.length - 2) t)) ∧
      (knots.length < 2 → basisRow knots t = [1, t]) ∧
      (∀ x y m, fit x y knots = .ok m → m.beta.length = basisDim knots) := by
  intro knots t
  refine ⟨basisRow_length knots t, ?_, ?_, fun x y m h => fit_beta_length x y knots m h⟩
  · intro h2
    constructor
    · unfold basisDim
      split
      · omega
      · rfl
    · unfold basisRow basisFuns
      split
      · omega
      · simp [List.map_map]
  · intro h2
    unfold basisRow basisFuns
    split
    · rfl
    · omega

/-- Witness for C8 at a concrete fit: three knots reduced to two, with the
coefficient vector of the successful fit having the basis dimension. -/
theorem C8_basis_dimension_witness :
    fit [0, 1, 2, 3] [0, 1, 2, 3] [1, 2] = .ok ⟨[1, 2], [0, 1]⟩ ∧
      (FittedModel.mk [1, 2] [0, 1]).beta.length = basisDim [1, 2] := by
  have h : fit [0, 1, 2, 3] [0, 1, 2, 3] [1, 2] = .ok ⟨[1, 2], [0, 1]⟩ := by
    with_unfolding_all decide
  exact ⟨h, (C8_basis_dimension [1, 2] 0).2.2.2 [0, 1, 2, 3] [0, 1, 2, 3] ⟨[1, 2], [0, 1]⟩ h⟩

/-- C4: `choose_knots` raises `InvalidInput` exactly when `k` is negative
or `x` is empty, `fit` raises `InvalidInput` exactly when the lengths
mismatch or `N ≤ m` (basis dimension `m`), the error is returned at the
API boundary (the `Except` value), and every other input yields a
successful result. -/
theorem C4_invalid_input_exactly :
    ∀ (x y knots : List ℚ) (k : ℤ),
      (choose_knots x k = .error .invalidInput ↔ (k < 0 ∨ x = [])) ∧
      ((∃ ks, choose_knots x k = .ok ks) ↔ ¬(k < 0 ∨ x = [])) ∧
      (fit x y knots = .error .invalidInput ↔
        (x.length ≠ y.length ∨ x.length ≤ basisDim knots)) ∧
      ((∃ m, fit x y knots = .ok m) ↔
        ¬(x.length ≠ y.length ∨ x.length ≤ basisDim knots)) := by
  intro x y knots k
  unfold choose_knots fit
  refine ⟨?_, ?_, ?_, ?_⟩ <;> split <;> simp_all <;> omega

/-- C6: `predict` returns a sequence of the same length as `x_new`, equal
to `X_new · β` for the basis matrix rebuilt from the stored knots and the
stored coefficients; applied to the training `x` it reproduces the fitted
values `X·β` of the least-squares solve, and the fitted model stores
exactly the knots it was fitted with (never recomputed). -/
theorem C6_predict_contract :
    ∀ (m : FittedModel) (xnew : List ℚ),
      (predict m xnew).length = xnew.length ∧
      predict m xnew = matVec (designMatrix m.knots xnew) m.beta ∧
      (∀ x y knots fm, fit x y knots = .ok fm →
        fm.knots = knots ∧ predict fm x = matVec (designMatrix knots x) fm.beta) := by
  intro m xnew
  refine ⟨by simp [predict], ?_, ?_⟩
  · simp [predict, predictOne, matVec, designMatrix, List.map_map]
  · intro x y knots fm h
    have hk : fm.knots = knots := by
      unfold fit at h
      split at h
      · cases h
      · cases h; rfl
    refine ⟨hk, ?_⟩
    rw [← hk]
    simp [predict, predictOne, matVec, designMatrix, List.map_map]

/-- Witness for C6 at a concrete fit: the model fitted on
`x = [0,1,2]`, `y = [1,2,3]` with no knots stores the empty knot set and
reproduces `X·β` on the training data. -/
theorem C6_predict_contract_witness :
    fit [0, 1, 2] [1, 2, 3] [] = .ok ⟨[], [1, 1]⟩ ∧
      (FittedModel.mk [] [1, 1]).knots = [] ∧
      predict ⟨[], [1, 1]⟩ [0, 1, 2] =
        matVec (designMatrix [] [0, 1, 2]) [1, 1] := by
  have h : fit [0, 1, 2] [1, 2, 3] [] = .ok ⟨[], [1, 1]⟩ := by
    with_unfolding_all decide
  exact ⟨h, (C6_predict_contract ⟨[], [1, 1]⟩ []).2.2 [0, 1, 2] [1, 2, 3] [] ⟨[], [1, 1]⟩ h⟩

/-- C7: `fit` and `predict` are pure functions — identical inputs give
identical outputs — and running the driver's tasks in any order
(permutation, as collected unordered from a worker pool) produces, for
every tuple, exactly the result of processing that tuple alone: no state
is shared between calls. -/
theorem C7_pure_parallel :
    (∀ x y knots, fit x y knots = fit x y knots) ∧
    (∀ (m : FittedModel) xs, predict m xs = predict m xs) ∧
    (∀ (gdir : List Char) (dates : Bool) (ts₁ ts₂ : List SplineTask),
      ts₁.Perm ts₂ → (runSeq gdir dates ts₁).Perm (runSeq gdir dates ts₂)) ∧
    (∀ (gdir : List Char) (dates : Bool) (ts : List SplineTask) t r,
      (t, r) ∈ runSeq gdir dates ts ↔ (t ∈ ts ∧ r = runTask gdir dates t)) := by
  refine ⟨fun _ _ _ => rfl, fun _ _ => rfl, ?_, ?_⟩
  · intro gdir dates ts₁ ts₂ hperm
    exact hperm.map (fun t => (t, runTask gdir dates t))
  · intro gdir dates ts t r
    constructor
    · intro h
      rcases List.mem_map.mp h with ⟨a, ha, hae⟩
      cases hae
      exact ⟨ha, rfl⟩
    · rintro ⟨ht, rfl⟩
      exact List.mem_map.mpr ⟨t, ht, rfl⟩

/-- Witness for C7: swapping two concrete tasks permutes the collected
results. -/
theorem C7_pure_parallel_witness :
    ((([⟨[], [], [], [0, 1, 2], [1, 2, 3], 0⟩] :
        List SplineTask).concat ⟨[], [], [], [0, 1, 2], [2, 3, 4], 0⟩).Perm
      [⟨[], [], [], [0, 1, 2], [2, 3, 4], 0⟩, ⟨[], [], [], [0, 1, 2], [1, 2, 3], 0⟩]) ∧
    (runSeq [] true (([⟨[], [], [], [0, 1, 2], [1, 2, 3], 0⟩] :
        List SplineTask).concat ⟨[], [], [], [0, 1, 2], [2, 3, 4], 0⟩)).Perm
      (runSeq [] true
        [⟨[], [], [], [0, 1, 2], [2, 3, 4], 0⟩, ⟨[], [], [], [0, 1, 2], [1, 2, 3], 0⟩]) := by
  have hperm :
      (([⟨[], [], [], [0, 1, 2], [1, 2, 3], 0⟩] :
        List SplineTask).concat ⟨[], [], [], [0, 1, 2], [2, 3, 4], 0⟩).Perm
      [⟨[], [], [], [0, 1, 2], [2, 3, 4], 0⟩, ⟨[], [], [], [0, 1, 2], [1, 2, 3], 0⟩] := by
    simp only [List.concat_eq_append, List.singleton_append]
    exact List.Perm.swap _ _ _
  exact ⟨hperm, C7_pure_parallel.2.2.1 [] true _ _ hperm⟩

/-! ### Output paths of the parallel driver -/

theorem digitChar_ne_underscore (d : ℕ) : digitChar d ≠ '_' := by
  have hb : ∀ r, r < 10 → Char.ofNat (48 + r) ≠ '_' := by decide
  exact hb (d % 10) (Nat.mod_lt d (by omega))

theorem natCharsAux_no_underscore :
    ∀ (fuel n : ℕ), '_' ∉ natCharsAux fuel n := by
  intro fuel
  induction fuel with
  | zero => intro n h; cases h
  | succ f ih =>
      intro n h
      unfold natCharsAux at h
      split at h
      · exact digitChar_ne_underscore n (List.mem_singleton.mp h).symm
      · rcases List.mem_append.mp h with h1 | h1
        · exact ih (n / 10) h1
        · exact digitChar_ne_underscore (n % 10)
            (List.mem_singleton.mp h1).symm

theorem natChars_no_underscore (n : ℕ) : '_' ∉ natChars n :=
  natCharsAux_no_underscore (n + 1) n

theorem natCharsAux_eq_natChars :
    ∀ (fuel n : ℕ), n < fuel → natCharsAux fuel n = natChars n := by
  intro fuel
  induction fuel using Nat.strong_induction_on with
  | _ fuel ih =>
      intro n hn
      match fuel with
      | 0 => omega
      | f + 1 =>
          show natCharsAux (f + 1) n = natCharsAux (n + 1) n
          unfold natCharsAux
          split
      -- both sides take the same branch on `n < 10`
          · rfl
          · rename_i hge
            have hdiv : n / 10 < n := Nat.div_lt_self (by omega) (by omega)
            rw [ih f (by omega) (n / 10) (by omega), ih n hn (n / 10) hdiv]

theorem natChars_eq (n : ℕ) :
    natChars n = (if n < 10 then [] else natChars (n / 10)) ++
      [digitChar (n % 10)] := by
  show natCharsAux (n + 1) n = _
  unfold natCharsAux
  split
  · rename_i hlt
    rw [Nat.mod_eq_of_lt hlt]
    rfl
  · rename_i hge
    have hdiv : n / 10 < n := Nat.div_lt_self (by omega) (by omega)
    rw [natCharsAux_eq_natChars n (n / 10) (by omega)]

theorem natChars_ne_nil (n : ℕ) : natChars n ≠ [] := by
  rw [natChars_eq]
  simp

theorem digitChar_inj_mod {a b : ℕ} (h : digitChar a = digitChar b) :
    a % 10 = b % 10 := by
  have hb : ∀ r, r < 10 → ∀ s, s < 10 →
      Char.ofNat (48 + r) = Char.ofNat (48 + s) → r = s := by decide
  exact hb (a % 10) (Nat.mod_lt a (by omega)) (b % 10)
    (Nat.mod_lt b (by omega)) h

theorem natChars_inj : ∀ (a b : ℕ), natChars a = natChars b → a = b := by
  intro a
  induction a using Nat.strong_induction_on with
  | _ a ih =>
      intro b h
      rw [natChars_eq a, natChars_eq b] at h
      obtain ⟨hpre, hlast⟩ := List.append_inj' h (by simp)
      have hmod : a % 10 = b % 10 := by
        have hc : digitChar (a % 10) = digitChar (b % 10) := by
          injection hlast
        have h2 := digitChar_inj_mod hc
        omega
      by_cases ha : a < 10 <;> by_cases hb : b < 10
      · omega
      · rw [if_pos ha, if_neg hb] at hpre
        exact absurd hpre.symm (natChars_ne_nil (b / 10))
      · rw [if_neg ha, if_pos hb] at hpre
        exact absurd hpre (natChars_ne_nil (a / 10))
      · rw [if_neg ha, if_neg hb] at hpre
        have hdiv : a / 10 < a := Nat.div_lt_self (by omega) (by omega)
        have := ih (a / 10) hdiv (b / 10) hpre
        omega

/-- Splitting at an occurrence of a separator absent from the leading
fields is unambiguous. -/
theorem sep_append_inj (sep : Char) :
    ∀ (a₁ a₂ r₁ r₂ : List Char), sep ∉ a₁ → sep ∉ a₂ →
      a₁ ++ sep :: r₁ = a₂ ++ sep :: r₂ → a₁ = a₂ ∧ r₁ = r₂ := by
  intro a₁
  induction a₁ with
  | nil =>
      intro a₂ r₁ r₂ h1 h2 h
      cases a₂ with
      | nil => simpa using h
      | cons b t =>
          simp only [List.nil_append, List.cons_append, List.cons.injEq] at h
          exact absurd (h.1 ▸ List.mem_cons_self b t) h2
  | cons c t ih =>
      intro a₂ r₁ r₂ h1 h2 h
      cases a₂ with
      | nil =>
          simp only [List.nil_append, List.cons_append, List.cons.injEq] at h
          exact absurd (h.1 ▸ List.mem_cons_self c t) h1
      | cons b t₂ =>
          simp only [List.cons_append, List.cons.injEq] at h
          obtain ⟨rfl, htail⟩ := h
          have := ih t₂ r₁ r₂ (fun hm => h1 (List.mem_cons_of_mem _ hm))
            (fun hm => h2 (List.mem_cons_of_mem _ hm)) htail
          exact ⟨by rw [this.1], this.2⟩

/-- C9 (amended): in one run (one graphics directory), two task tuples
whose stripped file names, targets and features are free of the `'_'`
separator produce distinct SVG paths whenever they differ in stripped
file name, target, feature or knot count. (As stated — for *every* pair
of distinct raw tuples — the claim fails: `str.strip(".csv")` and the
underscore joins can map distinct tuples to one path, see the
counterexample.) -/
theorem C9_distinct_paths (gdir f₁ t₁ u₁ f₂ t₂ u₂ : List Char) (k₁ k₂ : ℕ)
    (h₁ : '_' ∉ pystrip f₁) (h₂ : '_' ∉ t₁) (h₃ : '_' ∉ u₁)
    (h₄ : '_' ∉ pystrip f₂) (h₅ : '_' ∉ t₂) (h₆ : '_' ∉ u₂)
    (hne : (pystrip f₁, t₁, u₁, k₁) ≠ (pystrip f₂, t₂, u₂, k₂)) :
    svgPath gdir f₁ t₁ u₁ k₁ ≠ svgPath gdir f₂ t₂ u₂ k₂ := by
  intro heq
  unfold svgPath at heq
  simp only [List.append_assoc, List.cons_append] at heq
  have heq2 := List.append_cancel_left heq
  have heq3 := List.append_cancel_left heq2
  obtain ⟨hf, hrest⟩ := sep_append_inj '_' _ _ _ _ h₁ h₄ heq3
  obtain ⟨ht, hrest2⟩ := sep_append_inj '_' _ _ _ _ h₂ h₅ hrest
  obtain ⟨hu, hrest3⟩ := sep_append_inj '_' _ _ _ _ h₃ h₆ hrest2
  have hd : natChars k₁ = natChars k₂ := List.append_cancel_right hrest3
  exact hne (by rw [hf, ht, hu, natChars_inj k₁ k₂ hd])

/-- Counterexample to C9 as stated: the distinct tuples
`("a_b.csv", "c", "d", 1)` and `("a.csv", "b_c", "d", 1)` map to the same
SVG path `g/spline_a_b_c_d_1.svg`, because Python's `strip(".csv")` and
the underscore-joined name are not injective on raw tuples. -/
theorem C9_distinct_paths_counterexample :
    ("a_b.csv".toList, "c".toList, "d".toList, (1 : ℕ)) ≠
      ("a.csv".toList, "b_c".toList, "d".toList, (1 : ℕ)) ∧
    svgPath "g".toList "a_b.csv".toList "c".toList "d".toList 1 =
      svgPath "g".toList "a.csv".toList "b_c".toList "d".toList 1 := by
  constructor
  · decide
  · decide

/-- Witness for C9 (amended) at two concrete tuples differing in target. -/
theorem C9_distinct_paths_witness :
    ('_' ∉ pystrip "x.csv".toList ∧ '_' ∉ "a".toList ∧ '_' ∉ "b".toList ∧
      '_' ∉ pystrip "x.csv".toList ∧ '_' ∉ "aa".toList ∧ '_' ∉ "b".toList ∧
      (pystrip "x.csv".toList, "a".toList, "b".toList, (3 : ℕ)) ≠
        (pystrip "x.csv".toList, "aa".toList, "b".toList, (3 : ℕ))) ∧
    svgPath "g".toList "x.csv".toList "a".toList "b".toList 3 ≠
      svgPath "g".toList "x.csv".toList "aa".toList "b".toList 3 := by
  have hh : '_' ∉ pystrip "x.csv".toList ∧ '_' ∉ "a".toList ∧
      '_' ∉ "b".toList ∧ '_' ∉ pystrip "x.csv".toList ∧
      '_' ∉ "aa".toList ∧ '_' ∉ "b".toList ∧
      (pystrip "x.csv".toList, "a".toList, "b".toList, (3 : ℕ)) ≠
        (pystrip "x.csv".toList, "aa".toList, "b".toList, (3 : ℕ)) := by
    decide
  exact ⟨hh, C9_distinct_paths "g".toList "x.csv".toList "a".toList
    "b".toList "x.csv".toList "aa".toList "b".toList 3 3
    hh.1 hh.2.1 hh.2.2.1 hh.2.2.2.1 hh.2.2.2.2.1 hh.2.2.2.2.2.1
    hh.2.2.2.2.2.2⟩

/-- C10: in every driver task the model is fitted on the numeric `X` and
`predict` is invoked on that same numeric `X`; the datetime cast appears
only as the plot's x-axis values (so the fitted curve `y2` does not depend
on the `dates` flag at all). -/
theorem C10_fit_on_numeric_only :
    ∀ (gdir : List Char) (X y : List ℚ) (file target feature : List Char)
      (numknots : ℕ),
      (Except.map (fun r => r.y2)
          (plot_scatter_line gdir X y file target feature numknots true) =
        Except.map (fun r => r.y2)
          (plot_scatter_line gdir X y file target feature numknots false)) ∧
      (∀ r, plot_scatter_line gdir X y file target feature numknots true =
          .ok r →
        ∃ m, natural_cubic_spline X y (numknots : ℤ) = .ok m ∧
          r.y2 = predict m X ∧ r.xAxis = .datetime X) ∧
      (∀ r, plot_scatter_line gdir X y file target feature numknots false =
          .ok r →
        ∃ m, natural_cubic_spline X y (numknots : ℤ) = .ok m ∧
          r.y2 = predict m X ∧ r.xAxis = .numeric X) := by
  intro gdir X y file target feature numknots
  unfold plot_scatter_line
  cases hm : natural_cubic_spline X y (numknots : ℤ) with
  | error e =>
      refine ⟨rfl, ?_, ?_⟩ <;> intro r hr <;> cases hr
  | ok m =>
      refine ⟨rfl, ?_, ?_⟩ <;> intro r hr <;> cases hr <;>
        exact ⟨m, rfl, rfl, rfl⟩

/-- Witness for C10 at a concrete successful task. -/
theorem C10_fit_on_numeric_only_witness :
    plot_scatter_line [] [0, 1, 2] [1, 2, 3] [] [] [] 0 true =
      .ok ⟨.datetime [0, 1, 2], [1, 2, 3],
        predict ⟨[], [1, 1]⟩ [0, 1, 2], svgPath [] [] [] [] 0⟩ ∧
    ∃ m, natural_cubic_spline [0, 1, 2] [1, 2, 3] ((0 : ℕ) : ℤ) = .ok m ∧
      (PlotResult.mk (.datetime [0, 1, 2]) [1, 2, 3]
          (predict ⟨[], [1, 1]⟩ [0, 1, 2]) (svgPath [] [] [] [] 0)).y2 =
        predict m [0, 1, 2] ∧
      (PlotResult.mk (.datetime [0, 1, 2]) [1, 2, 3]
          (predict ⟨[], [1, 1]⟩ [0, 1, 2]) (svgPath [] [] [] [] 0)).xAxis =
        .datetime [0, 1, 2] := by
  have h : plot_scatter_line [] [0, 1, 2] [1, 2, 3] [] [] [] 0 true =
      .ok ⟨.datetime [0, 1, 2], [1, 2, 3],
        predict ⟨[], [1, 1]⟩ [0, 1, 2], svgPath [] [] [] [] 0⟩ := by
    with_unfolding_all decide
  exact ⟨h, (C10_fit_on_numeric_only [] [0, 1, 2] [1, 2, 3] [] [] [] 0).2.1
    _ h⟩

end Datasense

example : Datasense.choose_knots [0, 1, 2] 0 = .ok [] := by with_unfolding_all decide

example : Datasense.choose_knots [] 1 = .error .invalidInput := by with_unfolding_all decide

example :
    Datasense.choose_knots [0, 0, 0, 1, 2] 1 = .ok [0] := by with_unfolding_all decide

example :
    Datasense.fit [0, 1, 2] [1, 2, 3] [] = .ok ⟨[], [1, 1]⟩ := by with_unfolding_all decide
